import Mathlib

set_option autoImplicit false

/-!
Shallow embedding of `src/pacman.py` (python-pacman).

Conventions of the embedding:
* Python strings are `Str := List Char`; `toL` turns a Lean string literal
  into one.
* The Python `str.split(c)` (single-character separator, keeping empty
  fields) is `splitOnChar`; `str.split(" -> ")` is `splitArrow`;
  `str.split(sep, 1)` with the separator known to occur is
  `splitFirstChar`; the truthiness test `not x.split()` (only whitespace)
  is `isBlank`; `str.strip()` is `pyStrip`.
* Python dicts keyed by strings are association lists with dict update
  semantics (`dictSet` replaces in place, keeping the position of first
  insertion; `dictGet?` looks up); iteration order is insertion order,
  exactly as in Python 3.7+.
* Exceptions are the `PyErr` inductive; a fallible computation returns
  `Except PyErr`.  `list[i]` is `idx`, which raises `indexError` out of
  range.
* The subprocess boundary is a `Runner` mapping the arguments of
  `pacman(flags, pkgs, eflgs)` to a `CommandResult` (exit code, decoded
  stdout, decoded stderr).  The pure argv construction from
  `pacman` (src lines 218-229) is `pacmanCmd`, and the wrapping of raw
  output into a result dict (src lines 230-234) is `mkCommandResult`.
-/

abbrev Str := List Char

def toL (s : String) : Str := s.toList

/-- Python whitespace characters recognised by `str.split()`/`str.strip()`. -/
def pySpace (c : Char) : Bool :=
  c == ' ' || c == '\t' || c == '\n' || c == '\x0b' || c == '\x0c' || c == '\r'

/-- `not x.split()`: the line has no non-whitespace content. -/
def isBlank (s : Str) : Bool := s.all pySpace

/-- `str.strip()`. -/
def pyStrip (s : Str) : Str :=
  ((s.dropWhile pySpace).reverse.dropWhile pySpace).reverse

/-- `str.split(c)` for a single-character separator: keeps empty fields,
`"".split(c) = [""]`. -/
def splitOnChar (c : Char) : Str → List Str
  | [] => [[]]
  | x :: xs =>
    match splitOnChar c xs with
    | [] => [[]]
    | r :: rs => if x = c then [] :: r :: rs else (x :: r) :: rs

/-- `str.split(" -> ")`: leftmost, non-overlapping occurrences of the
four-character separator. -/
def splitArrow : Str → List Str
  | ' ' :: '-' :: '>' :: ' ' :: rest => [] :: splitArrow rest
  | x :: xs =>
    match splitArrow xs with
    | [] => [[]]
    | r :: rs => (x :: r) :: rs
  | [] => [[]]

/-- `str.split(c, 1)` under the assumption the separator occurs: the parts
before and after the first occurrence of `c`. -/
def splitFirstChar (c : Char) : Str → Str × Str
  | [] => ([], [])
  | x :: xs =>
    if x = c then ([], xs)
    else
      let p := splitFirstChar c xs
      (x :: p.1, p.2)

/-- Join a list of lines with a separator character (inverse of
`splitOnChar` on separator-free lines). -/
def joinSep (c : Char) : List Str → Str
  | [] => []
  | [l] => l
  | l :: ls => l ++ c :: joinSep c ls

/-- Python exceptions raised by the module. -/
inductive PyErr where
  | exc (msg : Str)
  | ioError (msg : Str)
  | indexError
  | typeError
  | unboundLocal
deriving DecidableEq, Repr

/-- `xs[i]`: raises `IndexError` when out of range. -/
def idx {α : Type} (xs : List α) (i : Nat) : Except PyErr α :=
  match xs.get? i with
  | some v => .ok v
  | none => .error .indexError

/-- Left fold of a fallible loop body over the lines of an output, the
shape of every `for x in s["stdout"].split('\n')` loop in the module. -/
def foldE {σ α : Type} (f : σ → α → Except PyErr σ) : σ → List α → Except PyErr σ
  | s, [] => .ok s
  | s, a :: as =>
    match f s a with
    | .error e => .error e
    | .ok s1 => foldE f s1 as

/-- Python dict assignment `m[k] = v`: replaces the value at the first
occurrence of `k` in place, otherwise appends (insertion order kept). -/
def dictSet {α : Type} : List (Str × α) → Str → α → List (Str × α)
  | [], k, v => [(k, v)]
  | (k0, v0) :: rest, k, v =>
    if k0 = k then (k, v) :: rest else (k0, v0) :: dictSet rest k v

/-- Python dict lookup `m[k]` / membership `k in m`. -/
def dictGet? {α : Type} : List (Str × α) → Str → Option α
  | [], _ => none
  | (k0, v0) :: rest, k => if k0 = k then some v0 else dictGet? rest k

def dictKeys {α : Type} (m : List (Str × α)) : List Str := m.map Prod.fst

/-- `result = {}; for (k, v) in ps: result[k] = v` — the final dict-building
pass of `get_info`. -/
def dictOfPairs (ps : List (Str × Str)) : List (Str × Str) :=
  ps.foldl (fun m kv => dictSet m kv.1 kv.2) []

/-- The result dict built by `pacman` lines 232-233:
`{"code": .., "stdout": .., "stderr": ..}`. -/
structure CommandResult where
  code : Int
  stdout : Str
  stderr : Str
deriving DecidableEq, Repr

/-- The `pkgs` argument of `pacman`: either a Python list of names or a
bare (string) value. -/
inductive PkgArg where
  | pylist (ps : List Str)
  | pystr (s : Str)
deriving DecidableEq, Repr

/-- Python truthiness of the `pkgs` argument (`if not pkgs`). -/
def pyTruthy : PkgArg → Bool
  | .pylist ps => !ps.isEmpty
  | .pystr s => !s.isEmpty

/-- The subprocess boundary: what `pacman(flags, pkgs, eflgs)` returns for
given arguments (exit code, decoded stdout, decoded stderr). -/
abbrev Runner := Str → PkgArg → List (Option Str) → CommandResult

/-- The apostrophe character used by `shlex.quote` for quoting. -/
def squote : Char := Char.ofNat 39

/-- Characters `shlex.quote` leaves unquoted: letters, digits, underscore,
and the punctuation at-sign, percent, plus, equals, colon, comma, dot,
slash, hyphen. -/
def shlexSafeChar (c : Char) : Bool :=
  c.isAlpha || c.isDigit || ['_', '@', '%', '+', '=', ':', ',', '.', '/', '-'].contains c

/-- `shlex.quote`: empty strings and strings with characters outside the
safe set are
wrapped in single quotes; an embedded single quote becomes the
five-character sequence quote, double quote, quote, double quote,
quote. -/
def shlexQuote (s : Str) : Str :=
  if s = [] then [squote, squote]
  else if s.all shlexSafeChar then s
  else
    squote ::
      ((s.map (fun c =>
          if c = squote then [squote, '"', squote, '"', squote] else [c])).flatten
        ++ [squote])

/-- Truthiness of an extra-flag entry (`None` and `""` are falsy). -/
def truthyO : Option Str → Bool
  | none => false
  | some s => !s.isEmpty

/-- `[x for x in eflgs if x]`. -/
def truthyFlags (eflgs : List (Option Str)) : List Str :=
  eflgs.filterMap fun x =>
    match x with
    | none => none
    | some s => if s.isEmpty then none else some s

/-- Argv built by `pacman` (src lines 220-229), without the binary:
`["--noconfirm", flags]`, then the package arguments (each
`shlex.quote`d when `pkgs` is a list, appended bare when it is a single
non-list value, nothing when falsy), then the truthy extra flags. -/
def pacmanCmdTail (flags : Str) (pkgs : PkgArg) (eflgs : List (Option Str)) : List Str :=
  let base : List Str := [toL "--noconfirm", flags]
  let withPkgs : List Str :=
    if pyTruthy pkgs = false then base
    else
      match pkgs with
      | .pylist ps => base ++ ps.map shlexQuote
      | .pystr s => base ++ [s]
  if eflgs ≠ [] ∧ eflgs.any truthyO then withPkgs ++ truthyFlags eflgs else withPkgs

/-- Full argv `[pacman_bin, "--noconfirm", flags, *pkgs, *eflgs]`. -/
def pacmanCmd (bin : Str) (flags : Str) (pkgs : PkgArg) (eflgs : List (Option Str)) : List Str :=
  bin :: pacmanCmdTail flags pkgs eflgs

/-- `data[1].rstrip(b'\n')`: strip trailing newline characters only. -/
def rstripNl (s : Str) : Str := (s.reverse.dropWhile (fun c => c == '\n')).reverse

/-- The result dict of `pacman` (src lines 231-233): stderr is
right-stripped of trailing newlines before decoding. -/
def mkCommandResult (code : Int) (rawStdout rawStderr : Str) : CommandResult :=
  { code := code, stdout := rawStdout, stderr := rstripNl rawStderr }

/-- A package record produced by `get_all` / `get_installed`.  Python dict
fields absent or `False` are modelled as `none`: `repo = none` means the
record carries no `"repo"` key, `upgradable = none` means
`"upgradable": False`, `upgradable = some v` means the candidate version
string `v`. -/
structure PackageRecord where
  id : Str
  version : Str
  repo : Option Str
  upgradable : Option Str
  installed : Bool
deriving DecidableEq, Repr

/-- A record produced by `get_available` (src line 150). -/
structure AvailRecord where
  id : Str
  repo : Str
  version : Str
deriving DecidableEq, Repr

/-- Loop body of the `-Q` parse shared by `get_all` (src lines 71-78) and
`get_installed` (src lines 110-117): skip blank lines, split on single
spaces, store `{"id": x[0], "version": x[1], "upgradable": False,
"installed": True}` under key `x[0]`. -/
def parseQStep (interim : List (Str × PackageRecord)) (line : Str) :
    Except PyErr (List (Str × PackageRecord)) :=
  if isBlank line then .ok interim
  else
    let x := splitOnChar ' ' line
    match idx x 0 with
    | .error e => .error e
    | .ok x0 =>
      match idx x 1 with
      | .error e => .error e
      | .ok x1 =>
        .ok (dictSet interim x0
          { id := x0, version := x1, repo := none, upgradable := none, installed := true })

/-- The installed map built from `-Q` stdout. -/
def installedMapOf (out : Str) : Except PyErr (List (Str × PackageRecord)) :=
  foldE parseQStep [] (splitOnChar '\n' out)

/-- Loop body of the `-Sl` reconciliation in `get_all` (src lines 84-96):
if the name `x[1]` is installed, annotate its `repo` with `x[0]` and,
when the versions differ, set `upgradable` to `x[2]`; otherwise append a
new not-installed record. -/
def slStep (st : List (Str × PackageRecord) × List PackageRecord) (line : Str) :
    Except PyErr (List (Str × PackageRecord) × List PackageRecord) :=
  if isBlank line then .ok st
  else
    let x := splitOnChar ' ' line
    match idx x 1 with
    | .error e => .error e
    | .ok x1 =>
      match dictGet? st.1 x1 with
      | some r =>
        match idx x 0 with
        | .error e => .error e
        | .ok x0 =>
          let r1 := { r with repo := some x0 }
          let i1 := dictSet st.1 x1 r1
          match idx x 2 with
          | .error e => .error e
          | .ok x2 =>
            let i2 :=
              if r1.version ≠ x2 then dictSet i1 x1 { r1 with upgradable := some x2 } else i1
            .ok (i2, st.2)
      | none =>
        match idx x 0 with
        | .error e => .error e
        | .ok x0 =>
          match idx x 2 with
          | .error e => .error e
          | .ok x2 =>
            .ok (st.1, st.2 ++
              [{ id := x1, version := x2, repo := some x0, upgradable := none,
                 installed := false }])

/-- `get_all` (src lines 63-99). -/
def get_all (run : Runner) : Except PyErr (List PackageRecord) :=
  let s := run (toL "-Q") (.pylist []) []
  if s.code ≠ 0 then .error (.exc (toL "Failed to get installed list: " ++ s.stderr))
  else
    match installedMapOf s.stdout with
    | .error e => .error e
    | .ok interim =>
      let s2 := run (toL "-Sl") (.pylist []) []
      if s2.code ≠ 0 then .error (.exc (toL "Failed to get available list: " ++ s2.stderr))
      else
        match foldE slStep (interim, []) (splitOnChar '\n' s2.stdout) with
        | .error e => .error e
        | .ok st => .ok (st.2 ++ st.1.map Prod.snd)

/-- `get_available` (src lines 138-151). -/
def get_available (run : Runner) : Except PyErr (List AvailRecord) :=
  let s := run (toL "-Sl") (.pylist []) []
  if s.code ≠ 0 then .error (.exc (toL "Failed to get available list: " ++ s.stderr))
  else
    foldE
      (fun results line =>
        if isBlank line then .ok results
        else
          let x := splitOnChar ' ' line
          match idx x 1 with
          | .error e => .error e
          | .ok x1 =>
            match idx x 0 with
            | .error e => .error e
            | .ok x0 =>
              match idx x 2 with
              | .error e => .error e
              | .ok x2 => .ok (results ++ [{ id := x1, repo := x0, version := x2 : AvailRecord }]))
      [] (splitOnChar '\n' s.stdout)

/-- Loop body of the `-Qu` reconciliation in `get_installed`
(src lines 123-131): split on `" -> "`, the name is the first
space-delimited token of the left side; when the name is installed set
its `upgradable` to `x[1]`. -/
def quStep (interim : List (Str × PackageRecord)) (line : Str) :
    Except PyErr (List (Str × PackageRecord)) :=
  if isBlank line then .ok interim
  else
    let x := splitArrow line
    match idx x 0 with
    | .error e => .error e
    | .ok x0 =>
      match idx (splitOnChar ' ' x0) 0 with
      | .error e => .error e
      | .ok name =>
        match dictGet? interim name with
        | some r =>
          match idx x 1 with
          | .error e => .error e
          | .ok x1 => .ok (dictSet interim name { r with upgradable := some x1 })
        | none => .ok interim

/-- `get_installed` (src lines 102-135).  Note the `-Qu` failure check:
an error is raised only when the exit code is non-zero AND stderr is
non-empty (src line 119). -/
def get_installed (run : Runner) : Except PyErr (List PackageRecord) :=
  let s := run (toL "-Q") (.pylist []) []
  if s.code ≠ 0 then .error (.exc (toL "Failed to get installed list: " ++ s.stderr))
  else
    match installedMapOf s.stdout with
    | .error e => .error e
    | .ok interim =>
      let s2 := run (toL "-Qu") (.pylist []) []
      if s2.code ≠ 0 ∧ s2.stderr ≠ [] then
        .error (.exc (toL "Failed to get upgradable list: " ++ s2.stderr))
      else
        match foldE quStep interim (splitOnChar '\n' s2.stdout) with
        | .error e => .error e
        | .ok interim2 => .ok (interim2.map Prod.snd)

/-- `is_installed` (src lines 192-194). -/
def is_installed (run : Runner) (package : Str) : Bool :=
  (run (toL "-Q") (.pystr package) []).code == 0

/-- Loop body of the colon-info-block parse in `get_info`
(src lines 160-169).  `acc` holds the `interim` pairs most-recent-first
(Python appends at the end and mutates `interim[-1]`; `get_info`
reverses the accumulator before the dict-building pass). -/
def infoStep (acc : List (Str × Str)) (line : Str) : Except PyErr (List (Str × Str)) :=
  if isBlank line then .ok acc
  else
    if (':' : Char) ∈ line then
      let p := splitFirstChar ':' line
      .ok ((pyStrip p.1, pyStrip p.2) :: acc)
    else
      match acc with
      | [] => .error .indexError
      | (k, v) :: rest => .ok ((k, v ++ toL "  " ++ pyStrip line) :: rest)

/-- `get_info` (src lines 154-173). -/
def get_info (run : Runner) (package : Str) : Except PyErr (List (Str × Str)) :=
  let flag := if is_installed run package then toL "-Qi" else toL "-Si"
  let s := run flag (.pystr package) []
  if s.code ≠ 0 then .error (.exc (toL "Failed to get info: " ++ s.stderr))
  else
    match foldE infoStep [] (splitOnChar '\n' s.stdout) with
    | .error e => .error e
    | .ok acc => .ok (dictOfPairs acc.reverse)

/-- `install` (src lines 32-36). -/
def install (run : Runner) (packages : PkgArg) (needed : Bool := true) : Except PyErr Unit :=
  let s := run (toL "-S") packages [if needed then some (toL "--needed") else none]
  if s.code ≠ 0 then .error (.exc (toL "Failed to install: " ++ s.stderr)) else .ok ()

/-- `upgrade` (src lines 46-53).  The local variable `s` is assigned only
in the `else` branch; on the non-empty-packages path the final
`if s["code"] != 0` reads an unassigned local and Python raises
`UnboundLocalError`.  The `Option CommandResult` local makes that
explicit: `none` means "never assigned". -/
def upgrade (run : Runner) (packages : PkgArg := .pylist []) : Except PyErr Unit :=
  if pyTruthy packages then
    match install run packages with
    | .error e => .error e
    | .ok _ => .error .unboundLocal
  else
    let s : Option CommandResult := some (run (toL "-Su") (.pylist []) [])
    match s with
    | none => .error .unboundLocal
    | some s1 =>
      if s1.code ≠ 0 then .error (.exc (toL "Failed to upgrade packages: " ++ s1.stderr))
      else .ok ()

/-- The filesystem/PATH environment seen by `set_bin`:
`os.path.isfile` and `shutil.which`. -/
structure Env where
  isFile : Str → Bool
  which : Str → Option Str

/-- The module-level state: `importBin` is the value `__PACMAN_BIN` held
at module load time (`shutil.which("pacman")`), also the value baked
into the `pacman_bin=__PACMAN_BIN` default parameters of `pacman` and
`get_info` — Python evaluates default values once, when the `def` line
runs at import.  `pacmanBin` is the current value of the global
`__PACMAN_BIN`, the only thing `set_bin` updates. -/
structure PacmanModule where
  importBin : Option Str
  pacmanBin : Option Str
deriving DecidableEq, Repr

/-- Module import: `__PACMAN_BIN = shutil.which("pacman")` (src line 10),
and the same value is captured as the default `pacman_bin`. -/
def moduleInit (env : Env) : PacmanModule :=
  { importBin := env.which (toL "pacman"), pacmanBin := env.which (toL "pacman") }

/-- The `path` argument of `set_bin`: a Python string or any non-string
value. -/
inductive PyVal where
  | str (s : Str)
  | other
deriving DecidableEq, Repr

/-- `set_bin` (src lines 20-29).  The condition is
`isinstance(path, str) and (os.path.isfile(path) or
os.path.isfile(shutil.which(path)))`; when `shutil.which(path)` is
`None`, `os.path.isfile(None)` raises `TypeError` (TypeError is not
among the exceptions `os.path.isfile` swallows).  On failure the global
is left unchanged; on success it becomes `shutil.which(path)`. -/
def set_bin (env : Env) (m : PacmanModule) (path : PyVal) : Option PyErr × PacmanModule :=
  match path with
  | .other => (some (.ioError (toL "This executable does not exist.")), m)
  | .str p =>
    if env.isFile p then (none, { m with pacmanBin := env.which p })
    else
      match env.which p with
      | none => (some .typeError, m)
      | some w =>
        if env.isFile w then (none, { m with pacmanBin := env.which p })
        else (some (.ioError (toL "This executable does not exist.")), m)

/-- The argv produced by the `pacman(...)` call of a facade operation: every
facade operation omits the `pacman_bin` argument, so the head of the
vector is the import-time default `m.importBin`, not the current
global `m.pacmanBin`. -/
def facadeCmd (m : PacmanModule) (flags : Str) (pkgs : PkgArg) (eflgs : List (Option Str)) :
    Option Str × List Str :=
  (m.importBin, pacmanCmdTail flags pkgs eflgs)

/-- The argv head for `install(packages)` after any sequence of `set_bin`
calls: the binary actually spawned. -/
def installArgvBin (m : PacmanModule) : Option Str := (facadeCmd m (toL "-S") (.pylist []) []).1

/- Concrete runners and environments used by the scenario theorems. -/

/-- Runner for the `get_all` scenario of the spec (claim C1): `-Q` returns
`"vim 9.0.1\nneovim 0.9.0\n"`, `-Sl` returns
`"extra vim 9.0.2\ncommunity ripgrep 14.0\n"`, both with exit code 0. -/
def runScenarioA : Runner := fun flags _ _ =>
  if flags = toL "-Q" then { code := 0, stdout := toL "vim 9.0.1\nneovim 0.9.0\n", stderr := [] }
  else if flags = toL "-Sl" then
    { code := 0, stdout := toL "extra vim 9.0.2\ncommunity ripgrep 14.0\n", stderr := [] }
  else { code := 0, stdout := [], stderr := [] }

/-- Runner exercising a duplicated not-installed name in `-Sl`
(claim C4): `-Q` is empty, `-Sl` lists `foo` twice. -/
def runDupAvail : Runner := fun flags _ _ =>
  if flags = toL "-Sl" then
    { code := 0, stdout := toL "a foo 1.0\nb foo 2.0\n", stderr := [] }
  else { code := 0, stdout := [], stderr := [] }

/-- Runner whose `-Sl` output has a line with a single token (claim C10). -/
def runShortLine : Runner := fun flags _ _ =>
  if flags = toL "-Sl" then { code := 0, stdout := toL "foo\n", stderr := [] }
  else { code := 0, stdout := [], stderr := [] }

/-- Runner on which every invocation exits 0 with empty output. -/
def runAllOk : Runner := fun _ _ _ => { code := 0, stdout := [], stderr := [] }

/-- Runner on which every invocation fails with exit code 1 and a fixed
stderr text. -/
def runAllFail : Runner := fun _ _ _ =>
  { code := 1, stdout := [], stderr := toL "error: target not found: vim" }

/-- Runner for the C5 witness: one installed package, and a `-Qu` query
that exits 1 with empty stderr (the "nothing to upgrade" case). -/
def runNothingToUpgrade : Runner := fun flags _ _ =>
  if flags = toL "-Q" then { code := 0, stdout := toL "vim 1.0\n", stderr := [] }
  else if flags = toL "-Qu" then { code := 1, stdout := [], stderr := [] }
  else { code := 0, stdout := [], stderr := [] }

/-- Runner whose `-Q` invocation fails while `-Qu` would succeed
(claim C5 counterexample). -/
def runQFails : Runner := fun flags _ _ =>
  if flags = toL "-Q" then { code := 1, stdout := [], stderr := toL "boom" }
  else { code := 0, stdout := [], stderr := [] }

/-- Environment where `yay` and `pacman` resolve to distinct existing
executables (claim C3). -/
def envYay : Env :=
  { isFile := fun p => p == toL "/usr/bin/pacman" || p == toL "/usr/bin/yay"
    which := fun p =>
      if p = toL "pacman" then some (toL "/usr/bin/pacman")
      else if p = toL "yay" then some (toL "/usr/bin/yay")
      else none }

/-- Environment where nothing exists and `which` finds nothing
(claim C8). -/
def envMissing : Env := { isFile := fun _ => false, which := fun _ => none }

/-- The non-blank lines of an output text. -/
def nonblankLines (out : Str) : List Str :=
  (splitOnChar '\n' out).filter (fun l => !(isBlank l))

/-- The first space-delimited field of a line (`x.split(' ')[0]`). -/
def firstTok (l : Str) : Str := (splitOnChar ' ' l).headD []

/-- The first tokens of the non-blank lines of a `-Q` output: the keys the
installed map is built from. -/
def qNames (out : Str) : List Str := (nonblankLines out).map firstTok

/-- The part of a `-Qu` line before the first `" -> "`. -/
def arrowHead (l : Str) : Str := (splitArrow l).headD []

/-- The package name `get_installed` extracts from a `-Qu` line:
`x.split(' -> ')[0].split(' ')[0]`. -/
def quName (l : Str) : Str := firstTok (arrowHead l)

/-- Rendering of a well-formed colon-info-block field line `key:value`. -/
def renderField (p : Str × Str) : Str := p.1 ++ ':' :: p.2

/-- What the field-line branch of `get_info` stores for a field line. -/
def stripPair (p : Str × Str) : Str × Str := (pyStrip p.1, pyStrip p.2)

/-- A colon-info block: two field lines, then two continuation lines
attached to the second field, then one more field line (claim C6
witness). -/
def infoBlockLines : List Str :=
  [renderField (toL "Name", toL " vim"),
   renderField (toL "Description", toL " a text editor"),
   toL "   continued one",
   toL "   continued two",
   renderField (toL "Version", toL " 1.0")]

/-- Runner answering every query with the colon-info block above. -/
def runInfoBlock : Runner := fun _ _ _ =>
  { code := 0, stdout := joinSep '\n' infoBlockLines, stderr := [] }

/-- Total access to the `i`-th space-delimited field of a line. -/
def tokAt (l : Str) (i : Nat) : Str := (splitOnChar ' ' l).getD i []

instance : Inhabited PackageRecord :=
  ⟨{ id := [], version := [], repo := none, upgradable := none, installed := false }⟩

instance : Inhabited AvailRecord := ⟨{ id := [], repo := [], version := [] }⟩

instance : Inhabited CommandResult := ⟨{ code := 0, stdout := [], stderr := [] }⟩

/-- Invariant of the installed map built by the `-Q` parse: keys are
unique and each record is stored under its own id, marked installed,
with no upgrade version recorded. -/
def QInv (m : List (Str × PackageRecord)) : Prop :=
  (dictKeys m).Nodup ∧ ∀ p ∈ m, p.2.id = p.1 ∧ p.2.installed = true ∧ p.2.upgradable = none

/-- Invariant of the `-Sl` reconciliation state relative to the installed
key set `ks`: the map keeps exactly the keys `ks` with records stored
under their own id and marked installed, while every emitted new record
is not installed and carries an id outside `ks`. -/
def SlInv (ks : List Str) (st : List (Str × PackageRecord) × List PackageRecord) : Prop :=
  dictKeys st.1 = ks
  ∧ (∀ p ∈ st.1, p.2.id = p.1 ∧ p.2.installed = true)
  ∧ (∀ r ∈ st.2, r.installed = false ∧ r.id ∉ ks)

/-! Theorems.  First the claim theorems that are closed evaluations of the
embedding on concrete inputs, then the helper lemmas and the general
theorems. -/

/-- C1: with `-Q` stdout `"vim 9.0.1\nneovim 0.9.0\n"` and `-Sl` stdout
`"extra vim 9.0.2\ncommunity ripgrep 14.0\n"`, both exiting 0, `get_all`
returns exactly the three records: not-installed `ripgrep` from repo
`community` at `14.0`; installed `vim 9.0.1` from `extra`, upgradable to
`9.0.2`; installed `neovim 0.9.0`, not upgradable (ordering is an
artefact of the reconciliation: new records first, then the installed
map in insertion order). -/
theorem get_all_scenario :
    get_all runScenarioA = .ok
      [{ id := toL "ripgrep", version := toL "14.0", repo := some (toL "community"),
         upgradable := none, installed := false },
       { id := toL "vim", version := toL "9.0.1", repo := some (toL "extra"),
         upgradable := some (toL "9.0.2"), installed := true },
       { id := toL "neovim", version := toL "0.9.0", repo := none,
         upgradable := none, installed := true }] := by
  rfl

/-- C2 (code bug): `upgrade` with a non-empty package list delegates to
`install`, but the local `s` checked afterwards is only assigned on the
empty-packages path.  When the `-S` invocation exits 0 the call raises
`UnboundLocalError` instead of completing; when it exits non-zero the
`install` error carrying the captured stderr propagates. -/
theorem upgrade_nonempty_raises :
    upgrade runAllOk (.pylist [toL "vim"]) = .error .unboundLocal
    ∧ upgrade runAllFail (.pylist [toL "vim"])
        = .error (.exc (toL "Failed to install: error: target not found: vim")) :=
  ⟨rfl, rfl⟩

/-- C3 (code bug): `set_bin "yay"` succeeds and updates the global
`__PACMAN_BIN` to `/usr/bin/yay`, yet a subsequent facade invocation
spawns with the import-time default `/usr/bin/pacman` as the first
element of its argument vector, because the `pacman_bin=__PACMAN_BIN`
default was evaluated once at definition time. -/
theorem set_bin_not_used_by_facade :
    (set_bin envYay (moduleInit envYay) (.str (toL "yay"))).1 = none
    ∧ (set_bin envYay (moduleInit envYay) (.str (toL "yay"))).2.pacmanBin
        = some (toL "/usr/bin/yay")
    ∧ installArgvBin (set_bin envYay (moduleInit envYay) (.str (toL "yay"))).2
        = some (toL "/usr/bin/pacman") :=
  ⟨rfl, rfl, rfl⟩

/-- C8 (code bug): for a name that is not a file and that `shutil.which`
cannot locate, `set_bin` raises `TypeError` (from
`os.path.isfile(None)`) instead of the intended not-found `IOError`;
the selected binary path is left unchanged. -/
theorem set_bin_which_none_typeerror :
    set_bin envMissing (moduleInit envMissing) (.str (toL "missing-tool"))
      = (some .typeError, moduleInit envMissing) :=
  rfl

/-- C10: on a non-blank `-Sl` line with a single space-delimited token
(`"foo"`), both `get_available` and `get_all` raise `IndexError` rather
than skipping the line or returning an incomplete record. -/
theorem short_line_index_error :
    get_available runShortLine = .error .indexError
    ∧ get_all runShortLine = .error .indexError :=
  ⟨rfl, rfl⟩

/-- C4, counterexample: with an empty `-Q` and an `-Sl` output in which
the not-installed name `foo` occurs on two lines, `get_all` returns two
distinct records with the same id, so the result set is not keyed
uniquely by id. -/
theorem get_all_dup_id_cex :
    get_all runDupAvail = .ok
      [{ id := toL "foo", version := toL "1.0", repo := some (toL "a"),
         upgradable := none, installed := false },
       { id := toL "foo", version := toL "2.0", repo := some (toL "b"),
         upgradable := none, installed := false }]
    ∧ ¬ (List.Nodup (List.map PackageRecord.id
        [{ id := toL "foo", version := toL "1.0", repo := some (toL "a"),
           upgradable := none, installed := false },
         { id := toL "foo", version := toL "2.0", repo := some (toL "b"),
           upgradable := none, installed := false }])) :=
  ⟨rfl, by decide⟩

/-- C9, counterexample: a `-Q` output of two well-formed lines sharing the
first token `vim` builds an installed map with a single entry (the last
occurrence wins), not one entry per line. -/
theorem installed_map_dup_cex :
    installedMapOf (toL "vim 1.0\nvim 2.0\n")
      = .ok [(toL "vim",
          { id := toL "vim", version := toL "2.0", repo := none,
            upgradable := none, installed := true })]
    ∧ (nonblankLines (toL "vim 1.0\nvim 2.0\n")).length = 2 :=
  ⟨rfl, rfl⟩

/-! Helper lemmas about the string and dict primitives. -/

theorem splitOnChar_ne_nil (c : Char) (s : Str) : splitOnChar c s ≠ [] := by
  induction s with
  | nil => simp [splitOnChar]
  | cons x xs ih =>
    simp only [splitOnChar]
    cases h : splitOnChar c xs with
    | nil => simp
    | cons r rs => by_cases hx : x = c <;> simp [hx]

theorem splitArrow_ne_nil (s : Str) : splitArrow s ≠ [] := by
  induction s using splitArrow.induct <;> simp_all [splitArrow]

theorem idx_eq_ok_iff {α : Type} (xs : List α) (i : Nat) (a : α) :
    idx xs i = .ok a ↔ xs.get? i = some a := by
  unfold idx
  cases xs.get? i <;> simp

theorem get?_getD {α : Type} (d : α) :
    ∀ (xs : List α) (i : Nat), i < xs.length → xs.get? i = some (xs.getD i d) := by
  intro xs
  induction xs with
  | nil => intro i h; simp at h
  | cons x xs ih =>
    intro i h
    cases i with
    | zero => rfl
    | succ j =>
      simp only [List.length_cons, Nat.succ_lt_succ_iff] at h
      simpa [List.getD] using ih j h

theorem idx_ok_of_lt {α : Type} (d : α) (xs : List α) (i : Nat) (h : i < xs.length) :
    idx xs i = .ok (xs.getD i d) :=
  (idx_eq_ok_iff xs i (xs.getD i d)).2 (get?_getD d xs i h)

theorem dictSet_cons_self {α : Type} (k : Str) (v v0 : α) (rest : List (Str × α)) :
    dictSet ((k, v0) :: rest) k v = (k, v) :: rest := by
  simp only [dictSet, eq_self_iff_true, if_true]

theorem dictSet_cons_ne {α : Type} (k k0 : Str) (v v0 : α) (rest : List (Str × α))
    (h : k0 ≠ k) : dictSet ((k0, v0) :: rest) k v = (k0, v0) :: dictSet rest k v := by
  simp only [dictSet, if_neg h]

theorem dictKeys_dictSet {α : Type} (m : List (Str × α)) (k : Str) (v : α) :
    dictKeys (dictSet m k v) =
      if k ∈ dictKeys m then dictKeys m else dictKeys m ++ [k] := by
  induction m with
  | nil => simp [dictSet, dictKeys]
  | cons p rest ih =>
    obtain ⟨k0, v0⟩ := p
    by_cases h : k0 = k
    · subst h
      rw [dictSet_cons_self]
      simp only [dictKeys, List.map_cons]
      rw [if_pos (List.mem_cons_self _ _)]
    · have hne : ¬ k = k0 := fun hh => h hh.symm
      rw [dictSet_cons_ne _ _ _ _ _ h]
      simp only [dictKeys, List.map_cons] at *
      rw [ih]
      by_cases hm : k ∈ List.map Prod.fst rest
      · rw [if_pos hm, if_pos (List.mem_cons.2 (Or.inr hm))]
      · rw [if_neg hm, if_neg (by simp [hne, hm]), List.cons_append]

theorem dictGet?_eq_none_iff {α : Type} (m : List (Str × α)) (k : Str) :
    dictGet? m k = none ↔ k ∉ dictKeys m := by
  induction m with
  | nil => simp [dictGet?, dictKeys]
  | cons p rest ih =>
    obtain ⟨k0, v0⟩ := p
    by_cases h : k0 = k
    · subst h
      constructor
      · intro hnone
        rw [dictGet?, if_pos rfl] at hnone
        exact Option.noConfusion hnone
      · intro hmem
        exact absurd (show k0 ∈ dictKeys ((k0, v0) :: rest) from List.mem_cons_self _ _) hmem
    · have hne : ¬ k = k0 := fun hh => h hh.symm
      rw [dictGet?, if_neg h, ih]
      simp only [dictKeys, List.map_cons, List.mem_cons]
      constructor
      · intro hx hor
        rcases hor with hor | hor
        · exact hne hor
        · exact hx hor
      · intro hx hmem
        exact hx (Or.inr hmem)

theorem dictGet?_some_mem {α : Type} {m : List (Str × α)} {k : Str} {v : α}
    (h : dictGet? m k = some v) : (k, v) ∈ m := by
  induction m with
  | nil => simp [dictGet?] at h
  | cons p rest ih =>
    obtain ⟨k0, v0⟩ := p
    by_cases hk : k0 = k
    · subst hk
      simp only [dictGet?, eq_self_iff_true, if_true, Option.some.injEq] at h
      subst h
      exact List.mem_cons_self _ _
    · rw [dictGet?, if_neg hk] at h
      exact List.mem_cons_of_mem _ (ih h)

theorem dictGet?_some_key_mem {α : Type} {m : List (Str × α)} {k : Str} {v : α}
    (h : dictGet? m k = some v) : k ∈ dictKeys m :=
  List.mem_map_of_mem Prod.fst (dictGet?_some_mem h)

theorem mem_dictSet {α : Type} {m : List (Str × α)} {k : Str} {v : α} {p : Str × α}
    (h : p ∈ dictSet m k v) : p = (k, v) ∨ p ∈ m := by
  induction m with
  | nil => simp [dictSet] at h; simp [h]
  | cons q rest ih =>
    obtain ⟨k0, v0⟩ := q
    by_cases hk : k0 = k
    · subst hk
      rw [dictSet_cons_self] at h
      rcases List.mem_cons.1 h with h | h
      · exact Or.inl h
      · exact Or.inr (List.mem_cons_of_mem _ h)
    · rw [dictSet_cons_ne _ _ _ _ _ hk] at h
      rcases List.mem_cons.1 h with h | h
      · exact Or.inr (h ▸ List.mem_cons_self _ _)
      · rcases ih h with h1 | h1
        · exact Or.inl h1
        · exact Or.inr (List.mem_cons_of_mem _ h1)

theorem dictSet_of_not_mem {α : Type} (m : List (Str × α)) (k : Str) (v : α)
    (h : k ∉ dictKeys m) : dictSet m k v = m ++ [(k, v)] := by
  induction m with
  | nil => simp [dictSet]
  | cons p rest ih =>
    obtain ⟨k0, v0⟩ := p
    simp only [dictKeys, List.map_cons, List.mem_cons] at h
    push_neg at h
    obtain ⟨h1, h2⟩ := h
    have h1' : k0 ≠ k := fun hh => h1 hh.symm
    rw [dictSet_cons_ne _ _ _ _ _ h1', ih h2, List.cons_append]

theorem dictKeys_nodup_dictSet {α : Type} (m : List (Str × α)) (k : Str) (v : α)
    (h : (dictKeys m).Nodup) : (dictKeys (dictSet m k v)).Nodup := by
  rw [dictKeys_dictSet]
  by_cases hm : k ∈ dictKeys m
  · simp [hm, h]
  · simp only [hm, if_false]
    simpa [List.nodup_append, hm] using h

theorem foldE_append {σ α : Type} (f : σ → α → Except PyErr σ) (s : σ) (xs ys : List α) :
    foldE f s (xs ++ ys) =
      match foldE f s xs with
      | .ok t => foldE f t ys
      | .error e => .error e := by
  induction xs generalizing s with
  | nil => simp [foldE]
  | cons a as ih =>
    simp only [List.cons_append, foldE]
    cases f s a <;> simp [ih]

/-! Lemmas about the `-Q` installed-map parse. -/

theorem isBlank_false_of_not {l : Str} (h : ¬ isBlank l = true) : isBlank l = false := by
  cases hx : isBlank l
  · rfl
  · exact absurd hx h

theorem getD_of_get? {α : Type} {xs : List α} {i : Nat} {a : α} (d : α)
    (h : xs.get? i = some a) : xs.getD i d = a := by
  have h2 : xs[i]? = some a := by
    rw [← List.get?_eq_getElem?]
    exact h
  simp [List.getD, h2]

theorem get?_some_lt {α : Type} {xs : List α} {i : Nat} {a : α}
    (h : xs.get? i = some a) : i < xs.length := by
  obtain ⟨hlt, -⟩ := List.get?_eq_some.1 h
  exact hlt

theorem headD_of_get?_zero {α : Type} {xs : List α} {a : α} (d : α)
    (h : xs.get? 0 = some a) : xs.headD d = a := by
  cases xs <;> simp_all

theorem firstTok_of_idx {l : Str} {a : Str} (h : idx (splitOnChar ' ' l) 0 = .ok a) :
    firstTok l = a :=
  headD_of_get?_zero [] ((idx_eq_ok_iff _ _ _).1 h)

theorem tokAt_of_idx {l : Str} {i : Nat} {a : Str} (h : idx (splitOnChar ' ' l) i = .ok a) :
    tokAt l i = a :=
  getD_of_get? [] ((idx_eq_ok_iff _ _ _).1 h)

theorem firstTok_eq_tokAt (l : Str) : firstTok l = tokAt l 0 := by
  cases hx : splitOnChar ' ' l with
  | nil => exact absurd hx (splitOnChar_ne_nil _ _)
  | cons a t => simp [firstTok, tokAt, hx, List.getD]

theorem parseQStep_blank (m : List (Str × PackageRecord)) (l : Str) (h : isBlank l = true) :
    parseQStep m l = .ok m := by
  simp [parseQStep, h]

theorem parseQStep_nonblank (m : List (Str × PackageRecord)) (l : Str)
    (hb : isBlank l = false) (hlen : 2 ≤ (splitOnChar ' ' l).length) :
    parseQStep m l = .ok (dictSet m (firstTok l)
      { id := firstTok l, version := tokAt l 1, repo := none, upgradable := none,
        installed := true }) := by
  have h0 : idx (splitOnChar ' ' l) 0 = .ok (tokAt l 0) := idx_ok_of_lt [] _ 0 (by omega)
  have h1 : idx (splitOnChar ' ' l) 1 = .ok (tokAt l 1) := idx_ok_of_lt [] _ 1 (by omega)
  simp only [parseQStep]
  rw [if_neg (by simp [hb])]
  simp only [h0, h1, firstTok_eq_tokAt]

theorem parseQStep_ok_shape {m m' : List (Str × PackageRecord)} {l : Str}
    (h : parseQStep m l = .ok m') :
    (isBlank l = true ∧ m' = m) ∨
    (isBlank l = false ∧ 2 ≤ (splitOnChar ' ' l).length ∧
      m' = dictSet m (firstTok l)
        { id := firstTok l, version := tokAt l 1, repo := none, upgradable := none,
          installed := true }) := by
  by_cases hb : isBlank l = true
  · rw [parseQStep_blank m l hb] at h
    exact Or.inl ⟨hb, (Except.ok.inj h).symm⟩
  · have hb' := isBlank_false_of_not hb
    right
    refine ⟨hb', ?_⟩
    cases h0 : idx (splitOnChar ' ' l) 0 with
    | error e =>
      simp only [parseQStep] at h
      rw [if_neg hb] at h
      simp only [h0] at h
      exact Except.noConfusion h
    | ok x0 =>
      cases h1 : idx (splitOnChar ' ' l) 1 with
      | error e =>
        simp only [parseQStep] at h
        rw [if_neg hb] at h
        simp only [h0, h1] at h
        exact Except.noConfusion h
      | ok x1 =>
        simp only [parseQStep] at h
        rw [if_neg hb] at h
        simp only [h0, h1] at h
        have hlen : 2 ≤ (splitOnChar ' ' l).length :=
          get?_some_lt ((idx_eq_ok_iff _ _ _).1 h1)
        refine ⟨hlen, ?_⟩
        rw [firstTok_of_idx h0, tokAt_of_idx h1]
        exact (Except.ok.inj h).symm

theorem mem_dictKeys_dictSet {α : Type} (m : List (Str × α)) (t k : Str) (v : α) :
    k ∈ dictKeys (dictSet m t v) ↔ k ∈ dictKeys m ∨ k = t := by
  rw [dictKeys_dictSet]
  by_cases hm : t ∈ dictKeys m
  · rw [if_pos hm]
    constructor
    · exact Or.inl
    · rintro (h | rfl)
      · exact h
      · exact hm
  · rw [if_neg hm]
    simp [List.mem_append]

theorem qfold_inv : ∀ (ls : List Str) (m m' : List (Str × PackageRecord)),
    foldE parseQStep m ls = .ok m' → QInv m → QInv m' := by
  intro ls
  induction ls with
  | nil =>
    intro m m' h hm
    simp only [foldE] at h
    exact (Except.ok.inj h) ▸ hm
  | cons l ls ih =>
    intro m m' h hm
    cases hstep : parseQStep m l with
    | error e =>
      simp only [foldE, hstep] at h
      exact Except.noConfusion h
    | ok m1 =>
      simp only [foldE, hstep] at h
      refine ih m1 m' h ?_
      rcases parseQStep_ok_shape hstep with ⟨-, rfl⟩ | ⟨-, -, rfl⟩
      · exact hm
      · constructor
        · exact dictKeys_nodup_dictSet _ _ _ hm.1
        · intro p hp
          rcases mem_dictSet hp with rfl | hp2
          · exact ⟨rfl, rfl, rfl⟩
          · exact hm.2 p hp2

theorem qfold_keys : ∀ (ls : List Str) (m m' : List (Str × PackageRecord)),
    foldE parseQStep m ls = .ok m' →
    ∀ k, k ∈ dictKeys m' ↔
      (k ∈ dictKeys m ∨ k ∈ (ls.filter (fun x => !(isBlank x))).map firstTok) := by
  intro ls
  induction ls with
  | nil =>
    intro m m' h k
    simp only [foldE] at h
    rw [← Except.ok.inj h]
    simp
  | cons l ls ih =>
    intro m m' h k
    cases hstep : parseQStep m l with
    | error e =>
      simp only [foldE, hstep] at h
      exact Except.noConfusion h
    | ok m1 =>
      simp only [foldE, hstep] at h
      have hk := ih m1 m' h k
      rcases parseQStep_ok_shape hstep with ⟨hb, rfl⟩ | ⟨hb, hlen, rfl⟩
      · rw [hk]
        simp [List.filter_cons, hb]
      · rw [hk]
        simp only [List.filter_cons, hb, Bool.not_false, if_true, List.map_cons,
          List.mem_cons, mem_dictKeys_dictSet]
        tauto

theorem qfold_ok : ∀ (ls : List Str) (m : List (Str × PackageRecord)),
    (∀ l ∈ ls, isBlank l = false → 2 ≤ (splitOnChar ' ' l).length) →
    ∃ m', foldE parseQStep m ls = .ok m' := by
  intro ls
  induction ls with
  | nil => intro m _; exact ⟨m, rfl⟩
  | cons l ls ih =>
    intro m h
    by_cases hb : isBlank l = true
    · obtain ⟨m', hm'⟩ := ih m (fun a ha => h a (List.mem_cons_of_mem _ ha))
      refine ⟨m', ?_⟩
      simp only [foldE, parseQStep_blank m l hb]
      exact hm'
    · have hb' := isBlank_false_of_not hb
      have hlen := h l (List.mem_cons_self _ _) hb'
      obtain ⟨m', hm'⟩ := ih _ (fun a ha => h a (List.mem_cons_of_mem _ ha))
      refine ⟨m', ?_⟩
      simp only [foldE, parseQStep_nonblank m l hb' hlen]
      exact hm'

theorem qfold_exact : ∀ (ls : List Str) (m : List (Str × PackageRecord)),
    (∀ l ∈ ls, isBlank l = false → 2 ≤ (splitOnChar ' ' l).length) →
    ((dictKeys m ++ (ls.filter (fun x => !(isBlank x))).map firstTok).Nodup) →
    ∃ m', foldE parseQStep m ls = .ok m'
      ∧ dictKeys m' = dictKeys m ++ (ls.filter (fun x => !(isBlank x))).map firstTok := by
  intro ls
  induction ls with
  | nil =>
    intro m _ _
    exact ⟨m, rfl, by simp⟩
  | cons l ls ih =>
    intro m h hnd
    by_cases hb : isBlank l = true
    · have hfilter : List.filter (fun x => !(isBlank x)) (l :: ls)
          = List.filter (fun x => !(isBlank x)) ls := by
        simp [List.filter_cons, hb]
      rw [hfilter] at hnd ⊢
      obtain ⟨m', h1, h2⟩ := ih m (fun a ha => h a (List.mem_cons_of_mem _ ha)) hnd
      refine ⟨m', ?_, h2⟩
      simp only [foldE, parseQStep_blank m l hb]
      exact h1
    · have hb' := isBlank_false_of_not hb
      have hlen := h l (List.mem_cons_self _ _) hb'
      have hfilter : List.filter (fun x => !(isBlank x)) (l :: ls)
          = l :: List.filter (fun x => !(isBlank x)) ls := by
        simp [List.filter_cons, hb']
      rw [hfilter] at hnd ⊢
      simp only [List.map_cons] at hnd ⊢
      have hnotm : firstTok l ∉ dictKeys m := by
        rw [List.nodup_append] at hnd
        intro hmem
        exact hnd.2.2 hmem (List.mem_cons_self _ _)
      have hkeys1 : dictKeys (dictSet m (firstTok l)
          { id := firstTok l, version := tokAt l 1, repo := none, upgradable := none,
            installed := true }) = dictKeys m ++ [firstTok l] := by
        rw [dictKeys_dictSet, if_neg hnotm]
      obtain ⟨m', h1, h2⟩ := ih _ (fun a ha => h a (List.mem_cons_of_mem _ ha))
        (by rw [hkeys1]; simpa [List.append_assoc] using hnd)
      refine ⟨m', ?_, ?_⟩
      · simp only [foldE, parseQStep_nonblank m l hb' hlen]
        exact h1
      · rw [h2, hkeys1]
        simp [List.append_assoc]

/-- C9 (amended): for a `-Q` output whose non-blank lines each carry at
least two space-delimited fields (well-formed) and whose first tokens
are pairwise distinct, the installed map shared by `get_all` and
`get_installed` (`installedMapOf`) has exactly one entry per non-blank
line, keyed in order by the first token of each line.  (The amendment
adds the distinctness proviso: the source builds a dict, so a repeated
first token collapses to a single entry — see the counterexample.) -/
theorem installed_map_exact (out : Str)
    (hwf : ∀ l ∈ splitOnChar '\n' out, isBlank l = false → 2 ≤ (splitOnChar ' ' l).length)
    (hnd : (qNames out).Nodup) :
    ∃ m, installedMapOf out = .ok m ∧ dictKeys m = qNames out
      ∧ m.length = (nonblankLines out).length := by
  obtain ⟨m, h1, h2⟩ := qfold_exact (splitOnChar '\n' out) [] hwf
    (by simpa [qNames, nonblankLines, dictKeys] using hnd)
  refine ⟨m, h1, ?_, ?_⟩
  · simpa [qNames, nonblankLines, dictKeys] using h2
  · have : (dictKeys m).length = (qNames out).length := by
      rw [h2]
      simp [qNames, nonblankLines, dictKeys]
    simpa [dictKeys, qNames, List.length_map] using this

/-- Witness for the amended C9 theorem at a concrete two-line output. -/
theorem installed_map_exact_witness :
    ∃ m, installedMapOf (toL "vim 1.0\nneovim 2.0\n") = .ok m
      ∧ dictKeys m = qNames (toL "vim 1.0\nneovim 2.0\n")
      ∧ m.length = (nonblankLines (toL "vim 1.0\nneovim 2.0\n")).length :=
  installed_map_exact (toL "vim 1.0\nneovim 2.0\n") (by decide) (by decide)

/-! Lemmas about the `-Sl` reconciliation fold of `get_all`. -/

theorem slStep_blank (st : List (Str × PackageRecord) × List PackageRecord) (l : Str)
    (h : isBlank l = true) : slStep st l = .ok st := by
  simp [slStep, h]

theorem slStep_inv {ks : List Str} {st st' : List (Str × PackageRecord) × List PackageRecord}
    {l : Str} (h : slStep st l = .ok st') (hst : SlInv ks st) : SlInv ks st' := by
  by_cases hb : isBlank l = true
  · rw [slStep_blank st l hb] at h
    exact (Except.ok.inj h) ▸ hst
  · obtain ⟨hkeys, hvals, hnew⟩ := hst
    simp only [slStep] at h
    rw [if_neg hb] at h
    cases h1 : idx (splitOnChar ' ' l) 1 with
    | error e =>
      simp only [h1] at h
      exact Except.noConfusion h
    | ok x1 =>
      simp only [h1] at h
      cases hget : dictGet? st.1 x1 with
      | some r =>
        simp only [hget] at h
        cases h0 : idx (splitOnChar ' ' l) 0 with
        | error e =>
          simp only [h0] at h
          exact Except.noConfusion h
        | ok x0 =>
          simp only [h0] at h
          cases h2 : idx (splitOnChar ' ' l) 2 with
          | error e =>
            simp only [h2] at h
            exact Except.noConfusion h
          | ok x2 =>
            simp only [h2] at h
            have hx1mem : x1 ∈ dictKeys st.1 := dictGet?_some_key_mem hget
            have hrmem : (x1, r) ∈ st.1 := dictGet?_some_mem hget
            have hrid := hvals _ hrmem
            rw [← Except.ok.inj h]
            have hkeys1 : dictKeys (dictSet st.1 x1 { r with repo := some x0 }) = ks := by
              rw [dictKeys_dictSet, if_pos hx1mem]
              exact hkeys
            have hvals1 : ∀ p ∈ dictSet st.1 x1 { r with repo := some x0 },
                p.2.id = p.1 ∧ p.2.installed = true := by
              intro p hp
              rcases mem_dictSet hp with rfl | hp2
              · exact ⟨hrid.1, hrid.2⟩
              · exact hvals p hp2
            by_cases hv : ({ r with repo := some x0 } : PackageRecord).version ≠ x2
            · rw [if_pos hv]
              refine ⟨?_, ?_, hnew⟩
              · rw [dictKeys_dictSet, if_pos (by rw [hkeys1, ← hkeys]; exact hx1mem)]
                exact hkeys1
              · intro p hp
                rcases mem_dictSet hp with rfl | hp2
                · exact ⟨hrid.1, hrid.2⟩
                · exact hvals1 p hp2
            · rw [if_neg hv]
              exact ⟨hkeys1, hvals1, hnew⟩
      | none =>
        simp only [hget] at h
        cases h0 : idx (splitOnChar ' ' l) 0 with
        | error e =>
          simp only [h0] at h
          exact Except.noConfusion h
        | ok x0 =>
          simp only [h0] at h
          cases h2 : idx (splitOnChar ' ' l) 2 with
          | error e =>
            simp only [h2] at h
            exact Except.noConfusion h
          | ok x2 =>
            simp only [h2] at h
            rw [← Except.ok.inj h]
            refine ⟨hkeys, hvals, ?_⟩
            intro rec hrec
            rcases List.mem_append.1 hrec with hrec | hrec
            · exact hnew rec hrec
            · rcases List.mem_singleton.1 hrec with rfl
              refine ⟨rfl, ?_⟩
              have := (dictGet?_eq_none_iff st.1 x1).1 hget
              rw [← hkeys]
              exact this

theorem slfold_inv : ∀ (ls : List Str) (ks : List Str)
    (st st' : List (Str × PackageRecord) × List PackageRecord),
    foldE slStep st ls = .ok st' → SlInv ks st → SlInv ks st' := by
  intro ls
  induction ls with
  | nil =>
    intro ks st st' h hst
    simp only [foldE] at h
    exact (Except.ok.inj h) ▸ hst
  | cons l ls ih =>
    intro ks st st' h hst
    cases hstep : slStep st l with
    | error e =>
      simp only [foldE, hstep] at h
      exact Except.noConfusion h
    | ok st1 =>
      simp only [foldE, hstep] at h
      exact ih ks st1 st' h (slStep_inv hstep hst)

/-- C4 (amended): in any successful `get_all` result, two distinct records
can share an id only when both are not-installed records (emitted for a
name that occurs on several `-Sl` lines while absent from the installed
map); records from the installed map have pairwise-distinct ids and
never collide with a not-installed record.  (The amendment allows the
duplicate not-installed case exhibited by the counterexample.) -/
theorem get_all_id_collision_only_new (run : Runner) (l : List PackageRecord)
    (h : get_all run = .ok l) :
    l.Pairwise (fun a b => a.id = b.id → a.installed = false ∧ b.installed = false) := by
  simp only [get_all] at h
  by_cases h1 : (run (toL "-Q") (.pylist []) []).code ≠ 0
  · rw [if_pos h1] at h
    exact Except.noConfusion h
  · rw [if_neg h1] at h
    cases hmap : installedMapOf (run (toL "-Q") (.pylist []) []).stdout with
    | error e =>
      simp only [hmap] at h
      exact Except.noConfusion h
    | ok interim =>
      simp only [hmap] at h
      by_cases h2 : (run (toL "-Sl") (.pylist []) []).code ≠ 0
      · rw [if_pos h2] at h
        exact Except.noConfusion h
      · rw [if_neg h2] at h
        cases hfold : foldE slStep (interim, [])
            (splitOnChar '\n' (run (toL "-Sl") (.pylist []) []).stdout) with
        | error e =>
          simp only [hfold] at h
          exact Except.noConfusion h
        | ok st =>
          simp only [hfold] at h
          have hq : QInv interim :=
            qfold_inv _ [] interim hmap ⟨List.nodup_nil, by simp⟩
          have hsl : SlInv (dictKeys interim) st := by
            refine slfold_inv _ _ _ _ hfold ⟨rfl, ?_, by simp⟩
            intro p hp
            exact ⟨(hq.2 p hp).1, (hq.2 p hp).2.1⟩
          rw [← Except.ok.inj h]
          rw [List.pairwise_append]
          obtain ⟨hkeys, hvals, hnew⟩ := hsl
          refine ⟨?_, ?_, ?_⟩
          · refine List.Pairwise.imp_mem.2 (List.pairwise_of_forall ?_)
            intro a b ha hb _
            exact ⟨(hnew a ha).1, (hnew b hb).1⟩
          · rw [List.pairwise_map]
            have hnd : st.1.Pairwise (fun p q => p.1 ≠ q.1) := by
              have := hkeys ▸ hq.1
              rw [show dictKeys st.1 = st.1.map Prod.fst from rfl] at this
              exact (List.pairwise_map).1 this
            refine hnd.imp_of_mem ?_
            intro p q hp hq2 hne hid
            exact absurd ((hvals p hp).1.symm.trans (hid.trans (hvals q hq2).1)) hne
          · intro a ha b hb hid
            have hbid : b.id ∈ dictKeys interim := by
              obtain ⟨p, hp, rfl⟩ := List.mem_map.1 hb
              rw [← hkeys]
              rw [(hvals p hp).1]
              exact List.mem_map_of_mem Prod.fst hp
            exact absurd (hid ▸ hbid) (hnew a ha).2

/-- Witness for the amended C4 theorem: the duplicate-`foo` scenario
satisfies the pairwise property because both colliding records are
not-installed. -/
theorem get_all_id_collision_only_new_witness :
    List.Pairwise (fun a b : PackageRecord =>
        a.id = b.id → a.installed = false ∧ b.installed = false)
      [{ id := toL "foo", version := toL "1.0", repo := some (toL "a"),
         upgradable := none, installed := false },
       { id := toL "foo", version := toL "2.0", repo := some (toL "b"),
         upgradable := none, installed := false }] :=
  get_all_id_collision_only_new runDupAvail _ rfl

/-! Lemmas about the `-Qu` reconciliation fold of `get_installed`. -/

theorem idx_zero_of_ne_nil {α : Type} {xs : List α} (h : xs ≠ []) (d : α) :
    idx xs 0 = .ok (xs.headD d) := by
  cases xs
  · exact absurd rfl h
  · rfl

theorem quStep_blank (m : List (Str × PackageRecord)) (l : Str) (h : isBlank l = true) :
    quStep m l = .ok m := by
  simp [quStep, h]

theorem quStep_not_mem (m : List (Str × PackageRecord)) (l : Str)
    (hb : isBlank l = false) (hn : dictGet? m (quName l) = none) :
    quStep m l = .ok m := by
  simp only [quName, firstTok, arrowHead] at hn
  simp only [quStep]
  rw [if_neg (by simp [hb])]
  simp only [idx_zero_of_ne_nil (splitArrow_ne_nil l) ([] : Str),
    idx_zero_of_ne_nil (splitOnChar_ne_nil ' ' ((splitArrow l).headD [])) ([] : Str), hn]

theorem quStep_mem_arrow (m : List (Str × PackageRecord)) (l : Str) (r : PackageRecord)
    (hb : isBlank l = false) (hr : dictGet? m (quName l) = some r)
    (hlen : 2 ≤ (splitArrow l).length) :
    quStep m l = .ok (dictSet m (quName l)
      { r with upgradable := some ((splitArrow l).getD 1 []) }) := by
  have h1 : idx (splitArrow l) 1 = .ok ((splitArrow l).getD 1 []) :=
    idx_ok_of_lt [] _ 1 (by omega)
  simp only [quName, firstTok, arrowHead] at hr ⊢
  simp only [quStep]
  rw [if_neg (by simp [hb])]
  simp only [idx_zero_of_ne_nil (splitArrow_ne_nil l) ([] : Str),
    idx_zero_of_ne_nil (splitOnChar_ne_nil ' ' ((splitArrow l).headD [])) ([] : Str), hr, h1]

theorem qufold_ok : ∀ (ls : List Str) (m : List (Str × PackageRecord)),
    (∀ l ∈ ls, isBlank l = false → 2 ≤ (splitArrow l).length ∨ quName l ∉ dictKeys m) →
    ∃ m', foldE quStep m ls = .ok m' ∧ dictKeys m' = dictKeys m := by
  intro ls
  induction ls with
  | nil => intro m _; exact ⟨m, rfl, rfl⟩
  | cons l ls ih =>
    intro m h
    by_cases hb : isBlank l = true
    · obtain ⟨m', h1, h2⟩ := ih m (fun a ha => h a (List.mem_cons_of_mem _ ha))
      refine ⟨m', ?_, h2⟩
      simp only [foldE, quStep_blank m l hb]
      exact h1
    · have hb' := isBlank_false_of_not hb
      cases hget : dictGet? m (quName l) with
      | none =>
        obtain ⟨m', h1, h2⟩ := ih m (fun a ha => h a (List.mem_cons_of_mem _ ha))
        refine ⟨m', ?_, h2⟩
        simp only [foldE, quStep_not_mem m l hb' hget]
        exact h1
      | some r =>
        have hmem : quName l ∈ dictKeys m := dictGet?_some_key_mem hget
        have hlen : 2 ≤ (splitArrow l).length := by
          rcases h l (List.mem_cons_self _ _) hb' with hx | hx
          · exact hx
          · exact absurd hmem hx
        have hkeys : dictKeys (dictSet m (quName l)
            { r with upgradable := some ((splitArrow l).getD 1 []) }) = dictKeys m := by
          rw [dictKeys_dictSet, if_pos hmem]
        obtain ⟨m', h1, h2⟩ := ih _ (fun a ha hba => by
          rw [hkeys]
          exact h a (List.mem_cons_of_mem _ ha) hba)
        refine ⟨m', ?_, by rw [h2, hkeys]⟩
        simp only [foldE, quStep_mem_arrow m l r hb' hget hlen]
        exact h1

/-- C5 (amended): provided the `-Q` query exits 0, its non-blank lines are
well-formed (at least two space-delimited fields), and every non-blank
`-Qu` line either contains the `" -> "` separator or names a package
absent from the installed map, `get_installed` raises an error exactly
when the `-Qu` invocation returns a non-zero exit code together with
non-empty stderr; and an empty `-Qu` stdout with exit code 0 yields the
installed records all with `upgradable = none` (no error).  (The
amendment adds the `-Q`-side provisos: a failing `-Q` query or a
malformed line raises on its own, regardless of the `-Qu` result.) -/
theorem get_installed_err_iff (run : Runner)
    (hq : (run (toL "-Q") (.pylist []) []).code = 0)
    (hqwf : ∀ l ∈ splitOnChar '\n' (run (toL "-Q") (.pylist []) []).stdout,
      isBlank l = false → 2 ≤ (splitOnChar ' ' l).length)
    (hqu : ∀ l ∈ splitOnChar '\n' (run (toL "-Qu") (.pylist []) []).stdout,
      isBlank l = false →
        2 ≤ (splitArrow l).length
          ∨ quName l ∉ qNames (run (toL "-Q") (.pylist []) []).stdout) :
    ((∃ e, get_installed run = .error e) ↔
      ((run (toL "-Qu") (.pylist []) []).code ≠ 0
        ∧ (run (toL "-Qu") (.pylist []) []).stderr ≠ []))
    ∧ (((run (toL "-Qu") (.pylist []) []).code = 0
          ∧ (run (toL "-Qu") (.pylist []) []).stdout = []) →
        ∃ rs, get_installed run = .ok rs ∧ ∀ r ∈ rs, r.upgradable = none) := by
  have hq' : ¬ (run (toL "-Q") (.pylist []) []).code ≠ 0 := fun hh => hh hq
  obtain ⟨m, hm⟩ := qfold_ok (splitOnChar '\n' (run (toL "-Q") (.pylist []) []).stdout) [] hqwf
  have hmapped : installedMapOf (run (toL "-Q") (.pylist []) []).stdout = .ok m := hm
  have hmkeys : ∀ k, k ∈ dictKeys m ↔ k ∈ qNames (run (toL "-Q") (.pylist []) []).stdout := by
    intro k
    have := qfold_keys _ [] m hm k
    simpa [qNames, nonblankLines, dictKeys] using this
  have hQInv : QInv m := qfold_inv _ [] m hm ⟨List.nodup_nil, by simp⟩
  have hok : ¬ ((run (toL "-Qu") (.pylist []) []).code ≠ 0
      ∧ (run (toL "-Qu") (.pylist []) []).stderr ≠ []) →
      ∃ m2 : List (Str × PackageRecord), get_installed run = .ok (m2.map Prod.snd) := by
    intro hcond
    have hyp2 : ∀ l2 ∈ splitOnChar '\n' (run (toL "-Qu") (.pylist []) []).stdout,
        isBlank l2 = false → 2 ≤ (splitArrow l2).length ∨ quName l2 ∉ dictKeys m := by
      intro a ha hba
      rcases hqu a ha hba with hx | hx
      · exact Or.inl hx
      · exact Or.inr (fun hk => hx ((hmkeys _).1 hk))
    obtain ⟨m2, h1, -⟩ := qufold_ok _ m hyp2
    refine ⟨m2, ?_⟩
    simp only [get_installed]
    rw [if_neg hq']
    simp only [hmapped]
    rw [if_neg hcond]
    simp only [h1]
  constructor
  · constructor
    · rintro ⟨e, he⟩
      by_contra hcond
      obtain ⟨m2, hok2⟩ := hok hcond
      rw [hok2] at he
      exact Except.noConfusion he
    · intro hcond
      refine ⟨.exc (toL "Failed to get upgradable list: "
        ++ (run (toL "-Qu") (.pylist []) []).stderr), ?_⟩
      simp only [get_installed]
      rw [if_neg hq']
      simp only [hmapped]
      rw [if_pos hcond]
  · rintro ⟨hc0, hempty⟩
    have hcond : ¬ ((run (toL "-Qu") (.pylist []) []).code ≠ 0
        ∧ (run (toL "-Qu") (.pylist []) []).stderr ≠ []) := fun hx => hx.1 hc0
    refine ⟨m.map Prod.snd, ?_, ?_⟩
    · simp only [get_installed]
      rw [if_neg hq']
      simp only [hmapped]
      rw [if_neg hcond, hempty]
      rfl
    · intro r hr
      obtain ⟨p, hp, rfl⟩ := List.mem_map.1 hr
      exact (hQInv.2 p hp).2.2

/-- Witness for the amended C5 theorem on the "nothing to upgrade" runner:
one installed package, `-Qu` exiting 1 with empty stderr and empty
stdout — no error, and the record is not upgradable. -/
theorem get_installed_err_iff_witness :
    ((∃ e, get_installed runNothingToUpgrade = .error e) ↔
      ((runNothingToUpgrade (toL "-Qu") (.pylist []) []).code ≠ 0
        ∧ (runNothingToUpgrade (toL "-Qu") (.pylist []) []).stderr ≠ []))
    ∧ (((runNothingToUpgrade (toL "-Qu") (.pylist []) []).code = 0
          ∧ (runNothingToUpgrade (toL "-Qu") (.pylist []) []).stdout = []) →
        ∃ rs, get_installed runNothingToUpgrade = .ok rs ∧ ∀ r ∈ rs, r.upgradable = none) :=
  get_installed_err_iff runNothingToUpgrade (by decide) (by decide) (by decide)

/-- C5, counterexample: when the `-Q` invocation itself fails,
`get_installed` raises even though the `-Qu` invocation exits 0 with
empty stderr — so "raises iff `-Qu` fails with non-empty stderr" does
not hold as stated. -/
theorem get_installed_err_iff_cex :
    get_installed runQFails = .error (.exc (toL "Failed to get installed list: boom"))
    ∧ (runQFails (toL "-Qu") (.pylist []) []).code = 0
    ∧ (runQFails (toL "-Qu") (.pylist []) []).stderr = [] :=
  ⟨rfl, rfl, rfl⟩

/-! Lemmas about the process-runner argument vector (`pacman`, src lines
218-234). -/

theorem truthyFlags_eq_nil (eflgs : List (Option Str)) (h : eflgs.any truthyO = false) :
    truthyFlags eflgs = [] := by
  rw [truthyFlags, List.filterMap_eq_nil_iff]
  intro a ha
  have h2 := List.any_eq_false.1 h a ha
  cases a with
  | none => rfl
  | some s =>
    simp only [truthyO] at h2
    cases hs : s.isEmpty
    · exact absurd (by simp [hs]) h2
    · simp [hs]

/-- C7: the executed argument vector is
`[binary, "--noconfirm", flags, *packages, *extraFlags]`: every element
of a package list with more than one entry is individually
`shlex.quote`d, a single bare (non-list) package value is appended
unescaped as one token, falsy extra-flag entries are filtered out, and
the captured stderr is right-stripped of trailing newlines before
decoding. -/
theorem pacman_contract (bin flags : Str) (eflgs : List (Option Str)) :
    (∀ ps : List Str, 1 < ps.length →
      pacmanCmd bin flags (.pylist ps) eflgs
        = bin :: toL "--noconfirm" :: flags :: (ps.map shlexQuote ++ truthyFlags eflgs))
    ∧ (∀ s : Str, s ≠ [] →
      pacmanCmd bin flags (.pystr s) eflgs
        = bin :: toL "--noconfirm" :: flags :: (s :: truthyFlags eflgs))
    ∧ (∀ (code : Int) (rawOut rawErr : Str),
        (mkCommandResult code rawOut rawErr).stderr = rstripNl rawErr) := by
  refine ⟨?_, ?_, ?_⟩
  · intro ps hps
    have hne : ps ≠ [] := by
      intro hx
      subst hx
      simp at hps
    have htr : ¬ (pyTruthy (.pylist ps) = false) := by
      simp [pyTruthy, hne]
    simp only [pacmanCmd, pacmanCmdTail]
    by_cases hany : eflgs.any truthyO = true
    · have hnil : eflgs ≠ [] := by
        intro hx
        subst hx
        simp [List.any] at hany
      rw [if_pos (show eflgs ≠ [] ∧ eflgs.any truthyO = true from ⟨hnil, hany⟩)]
      rw [if_neg htr]
      simp
    · have hany' : eflgs.any truthyO = false := by
        cases hx : eflgs.any truthyO
        · rfl
        · exact absurd hx hany
      rw [if_neg (show ¬ (eflgs ≠ [] ∧ eflgs.any truthyO = true) from fun hx => hany hx.2)]
      rw [if_neg htr]
      rw [truthyFlags_eq_nil eflgs hany']
      simp
  · intro s hs
    have htr : ¬ (pyTruthy (.pystr s) = false) := by
      simp [pyTruthy, hs]
    simp only [pacmanCmd, pacmanCmdTail]
    by_cases hany : eflgs.any truthyO = true
    · have hnil : eflgs ≠ [] := by
        intro hx
        subst hx
        simp [List.any] at hany
      rw [if_pos (show eflgs ≠ [] ∧ eflgs.any truthyO = true from ⟨hnil, hany⟩)]
      rw [if_neg htr]
      simp
    · have hany' : eflgs.any truthyO = false := by
        cases hx : eflgs.any truthyO
        · rfl
        · exact absurd hx hany
      rw [if_neg (show ¬ (eflgs ≠ [] ∧ eflgs.any truthyO = true) from fun hx => hany hx.2)]
      rw [if_neg htr]
      rw [truthyFlags_eq_nil eflgs hany']
      simp
  · intro code rawOut rawErr
    rfl

/-- Witness for the C7 contract at concrete inputs: a two-package list
(one name needing quoting), one falsy extra flag filtered out, and a
bare single package appended unescaped. -/
theorem pacman_contract_witness :
    pacmanCmd (toL "/usr/bin/pacman") (toL "-S") (.pylist [toL "a b", toL "c"])
        [some (toL "--needed"), none]
      = toL "/usr/bin/pacman" :: toL "--noconfirm" :: toL "-S"
          :: ([toL "a b", toL "c"].map shlexQuote
            ++ truthyFlags [some (toL "--needed"), none])
    ∧ pacmanCmd (toL "/usr/bin/pacman") (toL "-S") (.pystr (toL "a b"))
        [some (toL "--needed"), none]
      = toL "/usr/bin/pacman" :: toL "--noconfirm" :: toL "-S"
          :: (toL "a b" :: truthyFlags [some (toL "--needed"), none]) :=
  ⟨(pacman_contract (toL "/usr/bin/pacman") (toL "-S") [some (toL "--needed"), none]).1
      [toL "a b", toL "c"] (by decide),
   (pacman_contract (toL "/usr/bin/pacman") (toL "-S") [some (toL "--needed"), none]).2.1
      (toL "a b") (by decide)⟩

/-! Lemmas about the colon-info-block parse of `get_info`. -/

theorem foldE_append_ok {σ α : Type} (f : σ → α → Except PyErr σ) (s t : σ) (xs ys : List α)
    (h : foldE f s xs = .ok t) : foldE f s (xs ++ ys) = foldE f t ys := by
  rw [foldE_append, h]

theorem foldE_cons_ok {σ α : Type} (f : σ → α → Except PyErr σ) (s t : σ) (a : α) (as : List α)
    (h : f s a = .ok t) : foldE f s (a :: as) = foldE f t as := by
  simp only [foldE, h]

theorem isBlank_renderField (p : Str × Str) : isBlank (renderField p) = false := by
  have hc : pySpace ':' = false := rfl
  simp [renderField, isBlank, List.all_append, hc]

theorem colon_mem_renderField (p : Str × Str) : (':' : Char) ∈ renderField p := by
  simp [renderField]

theorem newline_not_mem_renderField {p : Str × Str} (h1 : ('\n' : Char) ∉ p.1)
    (h2 : ('\n' : Char) ∉ p.2) : ('\n' : Char) ∉ renderField p := by
  intro hmem
  simp only [renderField] at hmem
  rcases List.mem_append.1 hmem with hmem | hmem
  · exact h1 hmem
  · rcases List.mem_cons.1 hmem with hmem | hmem
    · exact absurd hmem (by decide)
    · exact h2 hmem

theorem splitFirstChar_render {k v : Str} (hk : (':' : Char) ∉ k) :
    splitFirstChar ':' (k ++ ':' :: v) = (k, v) := by
  induction k with
  | nil => simp [splitFirstChar]
  | cons a t ih =>
    have ha : a ≠ ':' := fun h => hk (h ▸ List.mem_cons_self _ _)
    have ht : (':' : Char) ∉ t := fun h => hk (List.mem_cons_of_mem _ h)
    simp [splitFirstChar, ha, ih ht]

theorem infoStep_field (acc : List (Str × Str)) (k v : Str) (hk : (':' : Char) ∉ k) :
    infoStep acc (renderField (k, v)) = .ok ((pyStrip k, pyStrip v) :: acc) := by
  simp only [infoStep]
  rw [if_neg (by simp [isBlank_renderField])]
  rw [if_pos (colon_mem_renderField (k, v))]
  rw [show renderField (k, v) = k ++ ':' :: v from rfl, splitFirstChar_render hk]

theorem infoStep_cont (k vv : Str) (rest : List (Str × Str)) (c : Str)
    (hb : isBlank c = false) (hc : (':' : Char) ∉ c) :
    infoStep ((k, vv) :: rest) c = .ok ((k, vv ++ toL "  " ++ pyStrip c) :: rest) := by
  simp only [infoStep]
  rw [if_neg (by simp [hb])]
  rw [if_neg hc]

theorem infoFold_fields : ∀ (ps : List (Str × Str)) (acc : List (Str × Str)),
    (∀ p ∈ ps, (':' : Char) ∉ p.1) →
    foldE infoStep acc (ps.map renderField) = .ok ((ps.map stripPair).reverse ++ acc) := by
  intro ps
  induction ps with
  | nil =>
    intro acc _
    simp [foldE]
  | cons p pt ih =>
    intro acc h
    obtain ⟨k, v⟩ := p
    rw [List.map_cons]
    rw [foldE_cons_ok _ _ _ _ _ (infoStep_field acc k v (h (k, v) (List.mem_cons_self _ _)))]
    rw [ih _ (fun q hq => h q (List.mem_cons_of_mem _ hq))]
    simp [stripPair, List.reverse_cons, List.append_assoc]

theorem dictFold_append : ∀ (ps : List (Str × Str)) (acc : List (Str × Str)),
    ((dictKeys acc ++ ps.map Prod.fst).Nodup) →
    ps.foldl (fun m kv => dictSet m kv.1 kv.2) acc = acc ++ ps := by
  intro ps
  induction ps with
  | nil =>
    intro acc _
    simp
  | cons p pt ih =>
    intro acc h
    obtain ⟨k, v⟩ := p
    simp only [List.map_cons] at h
    have hk : k ∉ dictKeys acc := by
      rw [List.nodup_append] at h
      intro hm
      exact h.2.2 hm (List.mem_cons_self _ _)
    simp only [List.foldl_cons]
    rw [dictSet_of_not_mem acc k v hk]
    rw [ih (acc ++ [(k, v)]) (by
      rw [show dictKeys (acc ++ [(k, v)]) = dictKeys acc ++ [k] from by simp [dictKeys]]
      simpa [List.append_assoc] using h)]
    simp [List.append_assoc]

theorem dictOfPairs_self (ps : List (Str × Str)) (h : (ps.map Prod.fst).Nodup) :
    dictOfPairs ps = ps := by
  have := dictFold_append ps [] (by simpa [dictKeys] using h)
  simpa [dictOfPairs] using this

theorem splitOnChar_not_mem {c : Char} {s : Str} (h : c ∉ s) : splitOnChar c s = [s] := by
  induction s with
  | nil => rfl
  | cons x xs ih =>
    have hx : x ≠ c := fun hh => h (hh ▸ List.mem_cons_self _ _)
    have ht := ih (fun hh => h (List.mem_cons_of_mem _ hh))
    simp only [splitOnChar, ht]
    rw [if_neg hx]

theorem splitOnChar_append_cons {c : Char} {a t : Str} (h : c ∉ a) :
    splitOnChar c (a ++ c :: t) = a :: splitOnChar c t := by
  induction a with
  | nil =>
    simp only [List.nil_append, splitOnChar]
    cases hx : splitOnChar c t with
    | nil => exact absurd hx (splitOnChar_ne_nil c t)
    | cons r rs => simp
  | cons x xs ih =>
    have hx : x ≠ c := fun hh => h (hh ▸ List.mem_cons_self _ _)
    have ht := ih (fun hh => h (List.mem_cons_of_mem _ hh))
    simp only [List.cons_append, splitOnChar, List.append_eq, ht]
    rw [if_neg hx]

theorem splitOnChar_joinSep {c : Char} : ∀ ls : List Str, ls ≠ [] →
    (∀ l ∈ ls, c ∉ l) → splitOnChar c (joinSep c ls) = ls := by
  intro ls
  induction ls with
  | nil =>
    intro h
    exact absurd rfl h
  | cons a t ih =>
    intro _ h
    cases t with
    | nil => exact splitOnChar_not_mem (h a (List.mem_cons_self _ _))
    | cons b t2 =>
      rw [show joinSep c (a :: b :: t2) = a ++ c :: joinSep c (b :: t2) from rfl]
      rw [splitOnChar_append_cons (h a (List.mem_cons_self _ _))]
      rw [ih (by simp) (fun l hl => h l (List.mem_cons_of_mem _ hl))]

/-- C6: on a colon-info block in which a field line is followed by exactly
two continuation lines (non-blank, colon-free), `get_info` maps that
field to its three fragments stripped and joined by two-space
separators, in original order, and the resulting mapping lists the
field names in insertion order of their first occurrence (here: the
given order, the names being distinct). -/
theorem get_info_continuation
    (run : Runner) (pkg : Str) (pre suf : List (Str × Str)) (n v c1 c2 B : Str)
    (hB : B = joinSep '\n'
      (pre.map renderField ++ [renderField (n, v), c1, c2] ++ suf.map renderField))
    (hrun : ∀ f : Str, f = toL "-Qi" ∨ f = toL "-Si" →
      run f (.pystr pkg) [] = { code := 0, stdout := B, stderr := [] })
    (hkeys : ∀ p ∈ pre ++ [(n, v)] ++ suf,
      (':' : Char) ∉ p.1 ∧ ('\n' : Char) ∉ p.1 ∧ ('\n' : Char) ∉ p.2)
    (hc1 : isBlank c1 = false ∧ (':' : Char) ∉ c1 ∧ ('\n' : Char) ∉ c1)
    (hc2 : isBlank c2 = false ∧ (':' : Char) ∉ c2 ∧ ('\n' : Char) ∉ c2)
    (hnd : (pre.map (fun p => pyStrip p.1)
      ++ pyStrip n :: suf.map (fun p => pyStrip p.1)).Nodup) :
    get_info run pkg = .ok
      (pre.map stripPair
        ++ (pyStrip n, pyStrip v ++ toL "  " ++ pyStrip c1 ++ toL "  " ++ pyStrip c2)
          :: suf.map stripPair) := by
  have hmid : (n, v) ∈ pre ++ [(n, v)] ++ suf :=
    List.mem_append_left _ (List.mem_append_right _ (List.mem_cons_self _ _))
  have hpre : ∀ p ∈ pre, (':' : Char) ∉ p.1 := fun p hp =>
    (hkeys p (List.mem_append_left _ (List.mem_append_left _ hp))).1
  have hsuf : ∀ p ∈ suf, (':' : Char) ∉ p.1 := fun p hp =>
    (hkeys p (List.mem_append_right _ hp)).1
  have hn : (':' : Char) ∉ n := (hkeys (n, v) hmid).1
  have hlines : splitOnChar '\n' B
      = pre.map renderField ++ [renderField (n, v), c1, c2] ++ suf.map renderField := by
    rw [hB]
    refine splitOnChar_joinSep _ (by simp) ?_
    intro l hl
    rcases List.mem_append.1 hl with hl | hl
    · rcases List.mem_append.1 hl with hl | hl
      · obtain ⟨p, hp, rfl⟩ := List.mem_map.1 hl
        have hk := hkeys p (List.mem_append_left _ (List.mem_append_left _ hp))
        exact newline_not_mem_renderField hk.2.1 hk.2.2
      · rcases List.mem_cons.1 hl with rfl | hl2
        · exact newline_not_mem_renderField (hkeys (n, v) hmid).2.1 (hkeys (n, v) hmid).2.2
        · rcases List.mem_cons.1 hl2 with rfl | hl3
          · exact hc1.2.2
          · rcases List.mem_cons.1 hl3 with rfl | hl4
            · exact hc2.2.2
            · exact absurd hl4 (List.not_mem_nil _)
    · obtain ⟨p, hp, rfl⟩ := List.mem_map.1 hl
      have hk := hkeys p (List.mem_append_right _ hp)
      exact newline_not_mem_renderField hk.2.1 hk.2.2
  have hfold : foldE infoStep []
      (pre.map renderField ++ [renderField (n, v), c1, c2] ++ suf.map renderField)
      = .ok ((suf.map stripPair).reverse
          ++ ((pyStrip n, (pyStrip v ++ toL "  " ++ pyStrip c1) ++ toL "  " ++ pyStrip c2)
            :: ((pre.map stripPair).reverse ++ []))) := by
    rw [List.append_assoc]
    rw [foldE_append_ok _ _ _ _ _ (infoFold_fields pre [] hpre)]
    rw [show ([renderField (n, v), c1, c2] : List Str) ++ suf.map renderField
        = renderField (n, v) :: c1 :: c2 :: suf.map renderField from rfl]
    rw [foldE_cons_ok _ _ _ _ _ (infoStep_field _ n v hn)]
    rw [foldE_cons_ok _ _ _ _ _ (infoStep_cont _ _ _ c1 hc1.1 hc1.2.1)]
    rw [foldE_cons_ok _ _ _ _ _ (infoStep_cont _ _ _ c2 hc2.1 hc2.2.1)]
    rw [infoFold_fields suf _ hsuf]
  have hsres : run (if is_installed run pkg then toL "-Qi" else toL "-Si") (.pystr pkg) []
      = { code := 0, stdout := B, stderr := [] } := by
    by_cases hins : is_installed run pkg
    · rw [if_pos hins]
      exact hrun _ (Or.inl rfl)
    · rw [if_neg hins]
      exact hrun _ (Or.inr rfl)
  simp only [get_info, hsres]
  rw [if_neg (by simp)]
  rw [hlines]
  simp only [hfold]
  have hrev : (((suf.map stripPair).reverse
      ++ ((pyStrip n, (pyStrip v ++ toL "  " ++ pyStrip c1) ++ toL "  " ++ pyStrip c2)
        :: ((pre.map stripPair).reverse ++ []))) : List (Str × Str)).reverse
      = pre.map stripPair
        ++ (pyStrip n, pyStrip v ++ toL "  " ++ pyStrip c1 ++ toL "  " ++ pyStrip c2)
          :: suf.map stripPair := by
    simp [List.reverse_append, List.reverse_cons, List.append_assoc]
  rw [hrev]
  rw [dictOfPairs_self _ (by
    simpa [stripPair, List.map_map, Function.comp] using hnd)]

/-- Witness for the C6 theorem on the concrete five-line info block. -/
theorem get_info_continuation_witness :
    get_info runInfoBlock (toL "vim") = .ok
      [(toL "Name", toL "vim"),
       (toL "Description", toL "a text editor  continued one  continued two"),
       (toL "Version", toL "1.0")] := by
  have h := get_info_continuation runInfoBlock (toL "vim")
    [(toL "Name", toL " vim")] [(toL "Version", toL " 1.0")]
    (toL "Description") (toL " a text editor")
    (toL "   continued one") (toL "   continued two")
    (joinSep '\n' infoBlockLines)
    rfl (fun _ _ => rfl) (by decide) (by decide) (by decide) (by decide)
  exact h.trans (by rfl)
